import Mathlib

/-!
Shallow embedding of `src/server/src/repositories/mongo/entry-repository.ts`.

The repository stores `Entry` documents in a MongoDB collection and offers:
  * `save` / `saveMany` — upsert via `toUpdateOneOperation`: `$max lastSeen`,
    `$min firstSeen`, `$set` of the remaining document fields plus
    `indexRequiredSince := currentTimestamp()`, and `$unset` of `indexJob`
    and `indexJobTimeout`;
  * `getIndexJob(count, timeout)` — generates a fresh `jobId` and issues a
    bulkWrite of `count` identical conditional `updateOne` operations, each
    of which tags the first document matching the eligibility filter
    (`indexRequiredSince` exists AND (`indexJob` missing OR
    `indexJobTimeout <= timestamp`)) with `indexJob := jobId`,
    `indexJobTimeout := timestamp + timeout`; then reads back all documents
    with `indexJob = jobId`;
  * `setIndexJobFinished(jobId)` — `updateMany` over the filter
    `indexJob = jobId`, `$unset`-ing `indexRequiredSince`, `indexJob` and
    `indexJobTimeout`.

Modelling choices:
  * the collection is a `List Entry` in Mongo natural order; `updateOne`
    updates the first matching document, `updateMany` all matching ones;
  * `currentTimestamp()` and `getRandomString(10)` are effects; they become
    explicit `timestamp` / `jobId` parameters of the operations;
  * the arbitrary descriptive fields of an entry are collapsed into one
    opaque `data` field;
  * in `toUpdateOneOperation` the `$set` document is the spread of the saved
    value's fields with an explicit `indexRequiredSince: currentTimestamp()`
    entry written after the spread (so it overrides any marker value the
    saved value carries), and `$unset` always targets `indexJob` and
    `indexJobTimeout`.  When the saved value itself carries a lease field,
    that path occurs in both `$set` and `$unset` and MongoDB rejects the
    whole update (ConflictingUpdateOperators): `saveChecked` models this
    fallible operation, while `save`/`applySaveUpdate`/`saveInsertDoc` are
    the applied update for saved values that carry no lease fields;
  * timestamps are `Int` (epoch milliseconds).
-/

namespace MVW

/-- The `Entry` document. `indexRequiredSince`, `indexJob` and
`indexJobTimeout` are the optional marker/lease fields; `data` stands for all
descriptive fields, which the claim protocol treats as opaque. -/
structure Entry where
  id : String
  firstSeen : Int
  lastSeen : Int
  indexRequiredSince : Option Int
  indexJob : Option String
  indexJobTimeout : Option Int
  data : String
deriving Repr, DecidableEq

/-- The collection, in Mongo natural order. -/
abbrev EntryStore := List Entry

/-- Mongo `updateOne`: apply `f` to the first document satisfying `p`,
leave everything else unchanged. -/
def updateFirst (p : Entry → Bool) (f : Entry → Entry) : EntryStore → EntryStore
  | [] => []
  | d :: ds => if p d then f d :: ds else d :: updateFirst p f ds

/-- The update of `toUpdateOneOperation` applied to an existing document `d`,
for a saved value that carries no lease fields (otherwise Mongo rejects the
update, see `saveChecked`): `$max lastSeen`, `$min firstSeen`, `$set` of the
remaining fields of `entry` plus `indexRequiredSince := now`, `$unset` of
`indexJob`/`indexJobTimeout`. -/
def applySaveUpdate (now : Int) (entry d : Entry) : Entry :=
  { id := entry.id
    firstSeen := min d.firstSeen entry.firstSeen
    lastSeen := max d.lastSeen entry.lastSeen
    indexRequiredSince := some now
    indexJob := none
    indexJobTimeout := none
    data := entry.data }

/-- The document created by the upsert branch of `toUpdateOneOperation` when
no document matches `_id = entry.id`, again for a saved value carrying no
lease fields (a conflicting update document is rejected before anything is
inserted): `$min`/`$max` on a missing field store the given value, `$set`
adds the rest, `$unset` is a no-op. -/
def saveInsertDoc (now : Int) (entry : Entry) : Entry :=
  { id := entry.id
    firstSeen := entry.firstSeen
    lastSeen := entry.lastSeen
    indexRequiredSince := some now
    indexJob := none
    indexJobTimeout := none
    data := entry.data }

/-- `save(entry)`: one upsert `updateOne` with filter `_id = entry.id`. -/
def save (now : Int) (entry : Entry) (store : EntryStore) : EntryStore :=
  if store.any (fun d => decide (d.id = entry.id)) then
    updateFirst (fun d => decide (d.id = entry.id)) (applySaveUpdate now entry) store
  else
    store ++ [saveInsertDoc now entry]

/-- `toUpdateOneOperation` spreads the saved value's fields into `$set` while
always `$unset`-ing `indexJob`/`indexJobTimeout`: the update document has
conflicting operator paths exactly when the saved value carries a lease
field. -/
def saveConflicts (entry : Entry) : Bool :=
  entry.indexJob.isSome || entry.indexJobTimeout.isSome

/-- `save(entry)` as MongoDB executes it: an update document whose `$set` and
`$unset` target the same path is rejected (ConflictingUpdateOperators) and
nothing is written; otherwise the upsert applies. -/
def saveChecked (now : Int) (entry : Entry) (store : EntryStore) :
    Except String EntryStore :=
  if saveConflicts entry then Except.error "ConflictingUpdateOperators"
  else Except.ok (save now entry store)

/-- A sequence of `save` calls, each with its own timestamp. -/
def saveSeq (calls : List (Int × Entry)) (store : EntryStore) : EntryStore :=
  calls.foldl (fun s c => save c.1 c.2 s) store

/-- `saveMany(entries)`: a bulkWrite of the individual upserts. -/
def saveMany (now : Int) (entries : List Entry) (store : EntryStore) : EntryStore :=
  entries.foldl (fun s e => save now e s) store

/-- The eligibility filter of `getIndexJob`:
`indexRequiredSince` exists AND (`indexJob` missing OR
`indexJobTimeout <= timestamp`).  A `$lte` comparison on a missing
`indexJobTimeout` does not match. -/
def eligible (timestamp : Int) (d : Entry) : Bool :=
  d.indexRequiredSince.isSome &&
    (d.indexJob.isNone ||
      (match d.indexJobTimeout with
        | some t => decide (t ≤ timestamp)
        | none => false))

/-- The `$set` of `getIndexJob`'s conditional update. -/
def claimUpdate (jobId : String) (timestamp timeout : Int) (d : Entry) : Entry :=
  { d with indexJob := some jobId, indexJobTimeout := some (timestamp + timeout) }

/-- One `updateOne` operation of `getIndexJob`'s bulkWrite. -/
def claimStep (jobId : String) (timestamp timeout : Int) (store : EntryStore) : EntryStore :=
  updateFirst (eligible timestamp) (claimUpdate jobId timestamp timeout) store

/-- The ordered bulkWrite of `count` identical `updateOne` operations built
by `createArray(count, ...)`. -/
def bulkClaim (jobId : String) (timestamp timeout : Int) : Nat → EntryStore → EntryStore
  | 0, store => store
  | n + 1, store => bulkClaim jobId timestamp timeout n (claimStep jobId timestamp timeout store)

/-- `getIndexJob(count, timeout)`, with the fresh `jobId` and the call's
`timestamp` as explicit parameters: the bulkWrite followed by the read-back
`loadManyByFilter({ indexJob })`. -/
def getIndexJob (jobId : String) (timestamp : Int) (count : Nat) (timeout : Int)
    (store : EntryStore) : EntryStore × List Entry :=
  let store' := bulkClaim jobId timestamp timeout count store
  (store', store'.filter (fun d => decide (d.indexJob = some jobId)))

/-- The `$unset` of `setIndexJobFinished`. -/
def releaseUpdate (d : Entry) : Entry :=
  { d with indexRequiredSince := none, indexJob := none, indexJobTimeout := none }

/-- `setIndexJobFinished(jobId)`: `updateMany` over `indexJob = jobId`. -/
def setIndexJobFinished (jobId : String) (store : EntryStore) : EntryStore :=
  store.map (fun d => if d.indexJob = some jobId then releaseUpdate d else d)

/-! ### Generic lemmas about `updateFirst` -/

theorem updateFirst_length (p : Entry → Bool) (f : Entry → Entry) :
    ∀ l : EntryStore, (updateFirst p f l).length = l.length := by
  intro l
  induction l with
  | nil => rfl
  | cons d ds ih =>
    by_cases h : p d = true
    · simp [updateFirst, h]
    · simp [updateFirst, h, ih]

theorem mem_updateFirst (p : Entry → Bool) (f : Entry → Entry) :
    ∀ (l : EntryStore) (x : Entry), x ∈ updateFirst p f l →
      x ∈ l ∨ ∃ d ∈ l, p d = true ∧ x = f d := by
  intro l
  induction l with
  | nil => intro x hx; exact absurd hx (by simp [updateFirst])
  | cons d ds ih =>
    intro x hx
    by_cases h : p d = true
    · simp only [updateFirst, h, if_pos] at hx
      rcases List.mem_cons.mp hx with h1 | h1
      · exact Or.inr ⟨d, List.mem_cons_self d ds, h, h1⟩
      · exact Or.inl (List.mem_cons_of_mem d h1)
    · simp only [updateFirst, h, if_neg, Bool.false_eq_true, not_false_iff] at hx
      rcases List.mem_cons.mp hx with h1 | h1
      · exact Or.inl (h1 ▸ List.mem_cons_self d ds)
      · rcases ih x h1 with h2 | ⟨e, he, hpe, hxe⟩
        · exact Or.inl (List.mem_cons_of_mem d h2)
        · exact Or.inr ⟨e, List.mem_cons_of_mem d he, hpe, hxe⟩

theorem updateFirst_countP_le (p : Entry → Bool) (f : Entry → Entry) (q : Entry → Bool) :
    ∀ l : EntryStore, (updateFirst p f l).countP q ≤ l.countP q + 1 := by
  intro l
  induction l with
  | nil => simp [updateFirst]
  | cons d ds ih =>
    by_cases h : p d = true
    · simp only [updateFirst, h, if_pos, List.countP_cons]
      by_cases hq : q (f d) = true
      · by_cases hq2 : q d = true
        · simp [hq, hq2]
        · simp only [hq, hq2]; simp
      · by_cases hq2 : q d = true
        · simp only [hq, hq2]; simp; omega
        · simp only [hq, hq2]; simp
    · simp only [updateFirst, h, if_neg, Bool.false_eq_true, not_false_iff, List.countP_cons]
      omega

theorem updateFirst_get (p : Entry → Bool) (f : Entry → Entry) :
    ∀ (l : EntryStore) (i : Nat) (h : i < l.length) (h2 : i < (updateFirst p f l).length),
      (updateFirst p f l).get ⟨i, h2⟩ = l.get ⟨i, h⟩ ∨
        (p (l.get ⟨i, h⟩) = true ∧ (updateFirst p f l).get ⟨i, h2⟩ = f (l.get ⟨i, h⟩)) := by
  intro l
  induction l with
  | nil => intro i h _; exact absurd h (by simp)
  | cons d ds ih =>
    intro i h h2
    by_cases hp : p d = true
    · cases i with
      | zero => exact Or.inr ⟨hp, by simp [updateFirst, hp]⟩
      | succ j => exact Or.inl (by simp [updateFirst, hp])
    · cases i with
      | zero => exact Or.inl (by simp [updateFirst, hp])
      | succ j =>
        have hj : j < ds.length := by simpa using h
        have hj2 : j < (updateFirst p f ds).length := by
          rw [updateFirst_length]; exact hj
        have := ih j hj hj2
        simpa [updateFirst, hp] using this

theorem updateFirst_get_of_false (p : Entry → Bool) (f : Entry → Entry)
    (l : EntryStore) (i : Nat) (h : i < l.length) (h2 : i < (updateFirst p f l).length)
    (hp : p (l.get ⟨i, h⟩) = false) :
    (updateFirst p f l).get ⟨i, h2⟩ = l.get ⟨i, h⟩ := by
  rcases updateFirst_get p f l i h h2 with h1 | ⟨h1, _⟩
  · exact h1
  · rw [hp] at h1; exact absurd h1 (by simp)

theorem updateFirst_map (p : Entry → Bool) (f : Entry → Entry) {β : Type}
    (g : Entry → β) (hg : ∀ d, g (f d) = g d) :
    ∀ l : EntryStore, (updateFirst p f l).map g = l.map g := by
  intro l
  induction l with
  | nil => rfl
  | cons d ds ih =>
    by_cases h : p d = true
    · simp [updateFirst, h, hg]
    · simp [updateFirst, h, ih]

theorem updateFirst_middle (p : Entry → Bool) (f : Entry → Entry) (e : Entry)
    (he : p e = false) :
    ∀ (l1 l2 : EntryStore), ∃ t1 t2 : EntryStore,
      updateFirst p f (l1 ++ e :: l2) = t1 ++ e :: t2 ∧ t1.length = l1.length := by
  intro l1
  induction l1 with
  | nil =>
    intro l2
    exact ⟨[], updateFirst p f l2, by simp [updateFirst, he], rfl⟩
  | cons d ds ih =>
    intro l2
    by_cases h : p d = true
    · exact ⟨f d :: ds, l2, by simp [updateFirst, h], by simp⟩
    · obtain ⟨t1, t2, heq, hlen⟩ := ih l2
      exact ⟨d :: t1, t2, by simp [updateFirst, h, heq], by simp [hlen]⟩

/-! ### Generic lemmas about `bulkClaim` -/

theorem bulkClaim_length (jobId : String) (timestamp timeout : Int) :
    ∀ (n : Nat) (l : EntryStore),
      (bulkClaim jobId timestamp timeout n l).length = l.length := by
  intro n
  induction n with
  | zero => intro l; rfl
  | succ m ih =>
    intro l
    rw [bulkClaim, ih, claimStep, updateFirst_length]

theorem mem_bulkClaim (jobId : String) (timestamp timeout : Int) :
    ∀ (n : Nat) (l : EntryStore) (x : Entry), x ∈ bulkClaim jobId timestamp timeout n l →
      x ∈ l ∨ ∃ d, eligible timestamp d = true ∧ x = claimUpdate jobId timestamp timeout d := by
  intro n
  induction n with
  | zero => intro l x hx; exact Or.inl hx
  | succ m ih =>
    intro l x hx
    rw [bulkClaim] at hx
    rcases ih _ x hx with h1 | h1
    · rcases mem_updateFirst _ _ l x h1 with h2 | ⟨d, hd, hpd, hxd⟩
      · exact Or.inl h2
      · exact Or.inr ⟨d, hpd, hxd⟩
    · exact Or.inr h1

theorem bulkClaim_countP_le (jobId : String) (timestamp timeout : Int) (q : Entry → Bool) :
    ∀ (n : Nat) (l : EntryStore),
      (bulkClaim jobId timestamp timeout n l).countP q ≤ l.countP q + n := by
  intro n
  induction n with
  | zero => intro l; simp [bulkClaim]
  | succ m ih =>
    intro l
    rw [bulkClaim]
    calc (bulkClaim jobId timestamp timeout m (claimStep jobId timestamp timeout l)).countP q
        ≤ (claimStep jobId timestamp timeout l).countP q + m := ih _
      _ ≤ (l.countP q + 1) + m := by
          exact Nat.add_le_add_right (updateFirst_countP_le _ _ q l) m
      _ = l.countP q + (m + 1) := by omega

/-- C1: `getIndexJob(count, leaseDuration)` returns at most `count` entries;
every returned entry is the conditional update (`claimUpdate`) applied to a
document that satisfied the eligibility predicate at the moment the update
applied; and after the call every returned entry carries
`indexJob = jobId` and `indexJobTimeout = timestamp + leaseDuration`.
`hfresh` states that the randomly generated `jobId` is fresh. -/
theorem C1_getIndexJob_claims
    (jobId : String) (timestamp : Int) (count : Nat) (timeout : Int) (store : EntryStore)
    (hfresh : ∀ d ∈ store, d.indexJob ≠ some jobId) :
    (getIndexJob jobId timestamp count timeout store).snd.length ≤ count ∧
    ∀ e ∈ (getIndexJob jobId timestamp count timeout store).snd,
      (∃ d, eligible timestamp d = true ∧ e = claimUpdate jobId timestamp timeout d) ∧
      e.indexJob = some jobId ∧ e.indexJobTimeout = some (timestamp + timeout) := by
  constructor
  · show ((bulkClaim jobId timestamp timeout count store).filter
      (fun d => decide (d.indexJob = some jobId))).length ≤ count
    rw [← List.countP_eq_length_filter]
    have h0 : store.countP (fun d => decide (d.indexJob = some jobId)) = 0 := by
      rw [List.countP_eq_zero]
      intro a ha
      simpa using hfresh a ha
    have := bulkClaim_countP_le jobId timestamp timeout
      (fun d => decide (d.indexJob = some jobId)) count store
    omega
  · intro e he
    have hmem : e ∈ bulkClaim jobId timestamp timeout count store :=
      List.mem_of_mem_filter he
    have hpred : e.indexJob = some jobId := by
      have := List.of_mem_filter he
      simpa using this
    rcases mem_bulkClaim jobId timestamp timeout count store e hmem with h1 | ⟨d, hd, hed⟩
    · exact absurd hpred (hfresh e h1)
    · exact ⟨⟨d, hd, hed⟩, hpred, by rw [hed]; rfl⟩

/-- Witness for C1 at a concrete store with one pending entry. -/
theorem C1_getIndexJob_claims_witness :
    (∀ d ∈ ([⟨"e1", 0, 1, some 0, none, none, "x"⟩] : EntryStore),
      d.indexJob ≠ some "J") ∧
    ((getIndexJob "J" 10 2 30 [⟨"e1", 0, 1, some 0, none, none, "x"⟩]).snd.length ≤ 2 ∧
    ∀ e ∈ (getIndexJob "J" 10 2 30 [⟨"e1", 0, 1, some 0, none, none, "x"⟩]).snd,
      (∃ d, eligible 10 d = true ∧ e = claimUpdate "J" 10 30 d) ∧
      e.indexJob = some "J" ∧ e.indexJobTimeout = some (10 + 30)) :=
  ⟨by decide, C1_getIndexJob_claims "J" 10 2 30 [⟨"e1", 0, 1, some 0, none, none, "x"⟩]
    (by decide)⟩

theorem bulkClaim_middle (jobId : String) (timestamp timeout : Int) (e : Entry)
    (he : eligible timestamp e = false) :
    ∀ (n : Nat) (l1 l2 : EntryStore), ∃ u1 u2 : EntryStore,
      bulkClaim jobId timestamp timeout n (l1 ++ e :: l2) = u1 ++ e :: u2 ∧
      u1.length = l1.length := by
  intro n
  induction n with
  | zero => intro l1 l2; exact ⟨l1, l2, rfl, rfl⟩
  | succ m ih =>
    intro l1 l2
    obtain ⟨v1, v2, hv, hvlen⟩ :=
      updateFirst_middle (eligible timestamp) (claimUpdate jobId timestamp timeout) e he l1 l2
    obtain ⟨u1, u2, hu, hulen⟩ := ih v1 v2
    refine ⟨u1, u2, ?_, by rw [hulen, hvlen]⟩
    rw [bulkClaim]
    show bulkClaim jobId timestamp timeout m
      (updateFirst (eligible timestamp) (claimUpdate jobId timestamp timeout) (l1 ++ e :: l2))
      = u1 ++ e :: u2
    rw [hv, hu]

/-- C2: an entry leased under `jid` with `indexJobTimeout = tEnd` (and the
indexing marker still set) is eligible for claim exactly at times `≥ tEnd`;
a claim call at a strictly earlier timestamp leaves the entry untouched at
its position in the store and does not return it. -/
theorem C2_lease_blocks_reclaim_until_expiry
    (e : Entry) (jid : String) (tEnd : Int)
    (hjob : e.indexJob = some jid) (hto : e.indexJobTimeout = some tEnd)
    (hreq : e.indexRequiredSince.isSome = true) :
    (∀ T : Int, eligible T e = true ↔ tEnd ≤ T) ∧
    (∀ (j2 : String) (ts2 to2 : Int) (n : Nat) (l1 l2 : EntryStore),
      ts2 < tEnd →
        (∃ u1 u2 : EntryStore,
          (getIndexJob j2 ts2 n to2 (l1 ++ e :: l2)).fst = u1 ++ e :: u2 ∧
          u1.length = l1.length) ∧
        (jid ≠ j2 → e ∉ (getIndexJob j2 ts2 n to2 (l1 ++ e :: l2)).snd)) := by
  have heligible : ∀ T : Int, eligible T e = true ↔ tEnd ≤ T := by
    intro T
    simp [eligible, hjob, hto, hreq]
  refine ⟨heligible, ?_⟩
  intro j2 ts2 to2 n l1 l2 hlt
  have hne : eligible ts2 e = false := by
    rw [← Bool.not_eq_true, heligible ts2]
    omega
  constructor
  · exact bulkClaim_middle j2 ts2 to2 e hne n l1 l2
  · intro hjid hmem
    have : e.indexJob = some j2 := by
      have := List.of_mem_filter hmem
      simpa using this
    rw [hjob] at this
    exact hjid (Option.some.inj this)

/-- Witness for C2: a leased entry with timeout 50, probed by a claim call
at timestamp 10 < 50. -/
theorem C2_lease_blocks_reclaim_until_expiry_witness :
    ((⟨"e2", 0, 1, some 0, some "K", some 50, "y"⟩ : Entry).indexJob = some "K" ∧
     (⟨"e2", 0, 1, some 0, some "K", some 50, "y"⟩ : Entry).indexJobTimeout = some 50 ∧
     (⟨"e2", 0, 1, some 0, some "K", some 50, "y"⟩ : Entry).indexRequiredSince.isSome = true) ∧
    ((∀ T : Int, eligible T ⟨"e2", 0, 1, some 0, some "K", some 50, "y"⟩ = true ↔ 50 ≤ T) ∧
    (∀ (j2 : String) (ts2 to2 : Int) (n : Nat) (l1 l2 : EntryStore),
      ts2 < 50 →
        (∃ u1 u2 : EntryStore,
          (getIndexJob j2 ts2 n to2
            (l1 ++ (⟨"e2", 0, 1, some 0, some "K", some 50, "y"⟩ : Entry) :: l2)).fst
            = u1 ++ (⟨"e2", 0, 1, some 0, some "K", some 50, "y"⟩ : Entry) :: u2 ∧
          u1.length = l1.length) ∧
        ("K" ≠ j2 → (⟨"e2", 0, 1, some 0, some "K", some 50, "y"⟩ : Entry) ∉
          (getIndexJob j2 ts2 n to2
            (l1 ++ (⟨"e2", 0, 1, some 0, some "K", some 50, "y"⟩ : Entry) :: l2)).snd))) :=
  ⟨⟨rfl, rfl, rfl⟩,
    C2_lease_blocks_reclaim_until_expiry ⟨"e2", 0, 1, some 0, some "K", some 50, "y"⟩ "K" 50
      rfl rfl rfl⟩

/-! ### Release (`setIndexJobFinished`) -/

/-- C3 counterexample: a jobId whose lease HAS expired (timeout 0 ≤ now = 5)
but whose entry is still tagged is NOT a no-op for `setIndexJobFinished`: the
call unsets the three fields of that entry. -/
theorem C3_counterexample :
    ((⟨"e3", 0, 1, some 0, some "J3", some 0, "z"⟩ : Entry).indexJob = some "J3" ∧
     (⟨"e3", 0, 1, some 0, some "J3", some 0, "z"⟩ : Entry).indexJobTimeout = some 0 ∧
     (0 : Int) ≤ 5) ∧
    setIndexJobFinished "J3" [⟨"e3", 0, 1, some 0, some "J3", some 0, "z"⟩] ≠
      [⟨"e3", 0, 1, some 0, some "J3", some 0, "z"⟩] := by
  refine ⟨⟨rfl, rfl, by decide⟩, ?_⟩
  intro h
  simp [setIndexJobFinished, releaseUpdate] at h

/-- C3 (amended): `setIndexJobFinished jobId` on a store in which no entry is
tagged with `jobId` (fully released, or the lease was reclaimed/cleared) is a
no-op: no error is raised and no entry changes. -/
theorem C3_release_untagged_noop (jobId : String) (s : EntryStore)
    (h : ∀ d ∈ s, d.indexJob ≠ some jobId) :
    setIndexJobFinished jobId s = s := by
  induction s with
  | nil => rfl
  | cons d ds ih =>
    have hd : d.indexJob ≠ some jobId := h d (List.mem_cons_self d ds)
    have hds : ∀ x ∈ ds, x.indexJob ≠ some jobId :=
      fun x hx => h x (List.mem_cons_of_mem d hx)
    simp [setIndexJobFinished, hd] at ih ⊢
    exact ih hds

/-- Witness for the amended C3 at a concrete untagged store. -/
theorem C3_release_untagged_noop_witness :
    (∀ d ∈ ([⟨"e1", 0, 1, some 0, none, none, "x"⟩,
             ⟨"e2", 0, 1, some 0, some "K", some 50, "y"⟩] : EntryStore),
      d.indexJob ≠ some "J") ∧
    setIndexJobFinished "J" [⟨"e1", 0, 1, some 0, none, none, "x"⟩,
                             ⟨"e2", 0, 1, some 0, some "K", some 50, "y"⟩] =
      [⟨"e1", 0, 1, some 0, none, none, "x"⟩,
       ⟨"e2", 0, 1, some 0, some "K", some 50, "y"⟩] :=
  ⟨by decide, C3_release_untagged_noop "J" _ (by decide)⟩

/-- C6: `setIndexJobFinished jobId` unsets all three of `indexRequiredSince`,
`indexJob`, `indexJobTimeout` on every entry currently tagged with `jobId`
(leaving it Idle) and leaves every other entry unchanged. -/
theorem C6_release_clears_tagged (jobId : String) (s : EntryStore) :
    (setIndexJobFinished jobId s).length = s.length ∧
    ∀ (i : Nat) (h : i < s.length) (h2 : i < (setIndexJobFinished jobId s).length),
      ((s.get ⟨i, h⟩).indexJob = some jobId →
        (setIndexJobFinished jobId s).get ⟨i, h2⟩ =
          { s.get ⟨i, h⟩ with
            indexRequiredSince := none, indexJob := none, indexJobTimeout := none }) ∧
      ((s.get ⟨i, h⟩).indexJob ≠ some jobId →
        (setIndexJobFinished jobId s).get ⟨i, h2⟩ = s.get ⟨i, h⟩) := by
  refine ⟨by simp [setIndexJobFinished], ?_⟩
  intro i h h2
  have hget : (setIndexJobFinished jobId s).get ⟨i, h2⟩ =
      (fun d => if d.indexJob = some jobId then releaseUpdate d else d) (s.get ⟨i, h⟩) := by
    simp [setIndexJobFinished, List.get_eq_getElem, List.getElem_map]
  constructor
  · intro htag
    rw [hget]
    simp only [htag, if_pos]
    rfl
  · intro htag
    rw [hget]
    simp only [if_neg htag]

/-- Witness for C6: one tagged and one untagged entry. -/
theorem C6_release_clears_tagged_witness :
    (([(⟨"a", 0, 1, some 0, some "J", some 9, "d"⟩ : Entry),
       ⟨"b", 2, 3, some 1, some "K", some 8, "e"⟩].get ⟨0, by decide⟩).indexJob = some "J") ∧
    (setIndexJobFinished "J" [⟨"a", 0, 1, some 0, some "J", some 9, "d"⟩,
        ⟨"b", 2, 3, some 1, some "K", some 8, "e"⟩]).get ⟨0, by decide⟩ =
      { ([(⟨"a", 0, 1, some 0, some "J", some 9, "d"⟩ : Entry),
          ⟨"b", 2, 3, some 1, some "K", some 8, "e"⟩].get ⟨0, by decide⟩) with
        indexRequiredSince := none, indexJob := none, indexJobTimeout := none } :=
  ⟨rfl,
    ((C6_release_clears_tagged "J"
      [⟨"a", 0, 1, some 0, some "J", some 9, "d"⟩,
       ⟨"b", 2, 3, some 1, some "K", some 8, "e"⟩]).2 0 (by decide) (by decide)).1 rfl⟩

/-! ### Save (`toUpdateOneOperation`) -/

theorem updateFirst_first_match (p : Entry → Bool) (f : Entry → Entry) (d : Entry)
    (hd : p d = true) :
    ∀ (l1 l2 : EntryStore), (∀ x ∈ l1, p x = false) →
      updateFirst p f (l1 ++ d :: l2) = l1 ++ f d :: l2 := by
  intro l1
  induction l1 with
  | nil => intro l2 _; simp [updateFirst, hd]
  | cons x xs ih =>
    intro l2 hall
    have hx : p x = false := hall x (List.mem_cons_self x xs)
    have hxs : ∀ y ∈ xs, p y = false := fun y hy => hall y (List.mem_cons_of_mem x hy)
    simp [updateFirst, hx, ih l2 hxs]

/-- C4 counterexample: a saved value that carries lease fields makes
`toUpdateOneOperation`'s update document target `indexJob`/`indexJobTimeout`
in both `$set` (via the spread) and `$unset`; MongoDB rejects the update, so
`save` on a leased document errors instead of clearing the lease —
contradicting the claim's "regardless of any marker or lease fields carried
on the saved entry value". -/
theorem C4_counterexample :
    saveConflicts ⟨"a", 2, 3, some 7, some "X", some 1, "new"⟩ = true ∧
    (⟨"a", 0, 9, some 0, some "J", some 9, "old"⟩ : Entry).indexJob = some "J" ∧
    saveChecked 7 ⟨"a", 2, 3, some 7, some "X", some 1, "new"⟩
        [⟨"a", 0, 9, some 0, some "J", some 9, "old"⟩] =
      Except.error "ConflictingUpdateOperators" :=
  ⟨rfl, rfl, rfl⟩

/-- C4 (amended): `save(entry)` at time `now` on a store whose document for
`entry.id` holds a lease under `oldJid` applies without error and clears the
lease whenever the saved value carries no lease fields — whatever marker
field it carries, since the explicit `indexRequiredSince` entry of the `$set`
overrides the spread: `indexJob`/`indexJobTimeout` are removed,
`indexRequiredSince := now`, a later `setIndexJobFinished oldJid` leaves the
document unchanged in place, and no later `getIndexJob` under a fresh jobId
returns an entry still carrying `oldJid`.  A saved value carrying lease
fields is instead rejected by the store (ConflictingUpdateOperators) and
nothing is written. -/
theorem C4_save_clears_lease
    (now : Int) (entry d : Entry) (oldJid : String) (l1 l2 : EntryStore)
    (hnoJ : entry.indexJob = none) (hnoT : entry.indexJobTimeout = none)
    (hid : d.id = entry.id)
    (hleft : ∀ x ∈ l1, x.id ≠ entry.id)
    (hjob : d.indexJob = some oldJid) :
    ∃ d' : Entry,
      saveChecked now entry (l1 ++ d :: l2) = Except.ok (l1 ++ d' :: l2) ∧
      d'.id = entry.id ∧
      d'.indexJob = none ∧ d'.indexJobTimeout = none ∧
      d'.indexRequiredSince = some now ∧
      (∃ u1 u2 : EntryStore,
        setIndexJobFinished oldJid (l1 ++ d' :: l2) = u1 ++ d' :: u2 ∧
        u1.length = l1.length) ∧
      (∀ (j2 : String) (ts2 : Int) (n : Nat) (to2 : Int),
        j2 ≠ oldJid →
        ∀ x ∈ (getIndexJob j2 ts2 n to2 (l1 ++ d' :: l2)).snd,
          x.indexJob ≠ some oldJid) := by
  refine ⟨applySaveUpdate now entry d, ?_, rfl, rfl, rfl, rfl, ?_, ?_⟩
  · have hnoconf : saveConflicts entry = false := by
      simp [saveConflicts, hnoJ, hnoT]
    have hok : saveChecked now entry (l1 ++ d :: l2) =
        Except.ok (save now entry (l1 ++ d :: l2)) := by
      simp [saveChecked, hnoconf]
    have hany : (l1 ++ d :: l2).any (fun x => decide (x.id = entry.id)) = true := by
      refine List.any_eq_true.mpr ⟨d, by simp, by simp [hid]⟩
    have hsave : save now entry (l1 ++ d :: l2) = l1 ++ applySaveUpdate now entry d :: l2 := by
      rw [save, if_pos hany]
      exact updateFirst_first_match _ _ d (by simp [hid]) l1 l2
        (fun x hx => by simp [hleft x hx])
    rw [hok, hsave]
  · refine ⟨setIndexJobFinished oldJid l1, setIndexJobFinished oldJid l2, ?_, ?_⟩
    · have hd' : (applySaveUpdate now entry d).indexJob ≠ some oldJid := by
        simp [applySaveUpdate]
      simp [setIndexJobFinished, hd']
    · simp [setIndexJobFinished]
  · intro j2 ts2 n to2 hne x hx
    have : x.indexJob = some j2 := by
      have := List.of_mem_filter hx
      simpa using this
    rw [this]
    intro hcontra
    exact hne (Option.some.inj hcontra)

/-- Witness for the amended C4: a single leased document overwritten by a
lease-free save that still carries a marker field. -/
theorem C4_save_clears_lease_witness :
    ((⟨"a", 2, 3, some 7, none, none, "new"⟩ : Entry).indexJob = none ∧
     (⟨"a", 2, 3, some 7, none, none, "new"⟩ : Entry).indexJobTimeout = none ∧
     (⟨"a", 0, 9, some 0, some "J", some 9, "old"⟩ : Entry).id =
      (⟨"a", 2, 3, some 7, none, none, "new"⟩ : Entry).id ∧
     (⟨"a", 0, 9, some 0, some "J", some 9, "old"⟩ : Entry).indexJob = some "J") ∧
    (∃ d' : Entry,
      saveChecked 7 ⟨"a", 2, 3, some 7, none, none, "new"⟩
          ([] ++ (⟨"a", 0, 9, some 0, some "J", some 9, "old"⟩ : Entry) :: []) =
        Except.ok ([] ++ d' :: []) ∧
      d'.id = (⟨"a", 2, 3, some 7, none, none, "new"⟩ : Entry).id ∧
      d'.indexJob = none ∧ d'.indexJobTimeout = none ∧
      d'.indexRequiredSince = some 7 ∧
      (∃ u1 u2 : EntryStore,
        setIndexJobFinished "J" ([] ++ d' :: []) = u1 ++ d' :: u2 ∧
        u1.length = ([] : EntryStore).length) ∧
      (∀ (j2 : String) (ts2 : Int) (n : Nat) (to2 : Int),
        j2 ≠ "J" →
        ∀ x ∈ (getIndexJob j2 ts2 n to2 ([] ++ d' :: [])).snd,
          x.indexJob ≠ some "J")) :=
  ⟨⟨rfl, rfl, rfl, rfl⟩,
    C4_save_clears_lease 7 ⟨"a", 2, 3, some 7, none, none, "new"⟩
      ⟨"a", 0, 9, some 0, some "J", some 9, "old"⟩ "J" [] []
      rfl rfl rfl (by simp) rfl⟩

/-! ### Watermark merge -/

theorem foldl_min_le :
    ∀ (l : List Int) (a : Int), l.foldl min a ≤ a ∧ ∀ x ∈ l, l.foldl min a ≤ x := by
  intro l
  induction l with
  | nil => intro a; exact ⟨le_refl a, by simp⟩
  | cons x xs ih =>
    intro a
    have h := ih (min a x)
    refine ⟨le_trans h.1 (min_le_left a x), ?_⟩
    intro y hy
    rcases List.mem_cons.mp hy with rfl | hy2
    · exact le_trans h.1 (min_le_right a y)
    · exact h.2 y hy2

theorem foldl_min_attained :
    ∀ (l : List Int) (a : Int), l.foldl min a = a ∨ l.foldl min a ∈ l := by
  intro l
  induction l with
  | nil => intro a; exact Or.inl rfl
  | cons x xs ih =>
    intro a
    rcases ih (min a x) with h | h
    · rcases min_choice a x with h2 | h2
      · exact Or.inl (by rw [List.foldl_cons, h, h2])
      · exact Or.inr (by rw [List.foldl_cons, h, h2]; exact List.mem_cons_self x xs)
    · exact Or.inr (List.mem_cons_of_mem x h)

theorem foldl_max_le :
    ∀ (l : List Int) (a : Int), a ≤ l.foldl max a ∧ ∀ x ∈ l, x ≤ l.foldl max a := by
  intro l
  induction l with
  | nil => intro a; exact ⟨le_refl a, by simp⟩
  | cons x xs ih =>
    intro a
    have h := ih (max a x)
    refine ⟨le_trans (le_max_left a x) h.1, ?_⟩
    intro y hy
    rcases List.mem_cons.mp hy with rfl | hy2
    · exact le_trans (le_max_right a y) h.1
    · exact h.2 y hy2

theorem foldl_max_attained :
    ∀ (l : List Int) (a : Int), l.foldl max a = a ∨ l.foldl max a ∈ l := by
  intro l
  induction l with
  | nil => intro a; exact Or.inl rfl
  | cons x xs ih =>
    intro a
    rcases ih (max a x) with h | h
    · rcases max_choice a x with h2 | h2
      · exact Or.inl (by rw [List.foldl_cons, h, h2])
      · exact Or.inr (by rw [List.foldl_cons, h, h2]; exact List.mem_cons_self x xs)
    · exact Or.inr (List.mem_cons_of_mem x h)

theorem saveSeq_single_id (theId : String) :
    ∀ (cs : List (Int × Entry)) (s : EntryStore) (d : Entry),
      d.id = theId → (∀ c ∈ cs, (c.2).id = theId) → (∀ x ∈ s, x.id ≠ theId) →
      ∃ d' : Entry, saveSeq cs (s ++ [d]) = s ++ [d'] ∧ d'.id = theId ∧
        d'.firstSeen = (cs.map (fun c => (c.2).firstSeen)).foldl min d.firstSeen ∧
        d'.lastSeen = (cs.map (fun c => (c.2).lastSeen)).foldl max d.lastSeen := by
  intro cs
  induction cs with
  | nil => intro s d hd _ _; exact ⟨d, rfl, hd, rfl, rfl⟩
  | cons c cs ih =>
    intro s d hd hcs hs
    have hcid : (c.2).id = theId := hcs c (List.mem_cons_self c cs)
    have hstep : save c.1 c.2 (s ++ [d]) = s ++ [applySaveUpdate c.1 c.2 d] := by
      have hany : (s ++ [d]).any (fun x => decide (x.id = (c.2).id)) = true :=
        List.any_eq_true.mpr ⟨d, by simp, by simp [hd, hcid]⟩
      rw [save, if_pos hany]
      have := updateFirst_first_match (fun x => decide (x.id = (c.2).id))
        (applySaveUpdate c.1 c.2) d (by simp [hd, hcid]) s []
        (fun x hx => by simp [hs x hx, hcid])
      simpa using this
    have hrec := ih s (applySaveUpdate c.1 c.2 d) (by simp [applySaveUpdate, hcid])
      (fun q hq => hcs q (List.mem_cons_of_mem c hq)) hs
    obtain ⟨d', heq, hid, hfirst, hlast⟩ := hrec
    refine ⟨d', ?_, hid, ?_, ?_⟩
    · show saveSeq (c :: cs) (s ++ [d]) = s ++ [d']
      have : saveSeq (c :: cs) (s ++ [d]) = saveSeq cs (save c.1 c.2 (s ++ [d])) := rfl
      rw [this, hstep, heq]
    · rw [hfirst]; rfl
    · rw [hlast]; rfl

theorem saveSeq_fresh_minmax (theId : String) (c : Int × Entry)
    (cs : List (Int × Entry)) (s : EntryStore)
    (hall : ∀ q ∈ c :: cs, (q.2).id = theId)
    (hs : ∀ x ∈ s, x.id ≠ theId) :
    ∃ d : Entry, saveSeq (c :: cs) s = s ++ [d] ∧ d.id = theId ∧
      (∀ q ∈ c :: cs, d.firstSeen ≤ (q.2).firstSeen ∧ (q.2).lastSeen ≤ d.lastSeen) ∧
      (∃ q ∈ c :: cs, (q.2).firstSeen = d.firstSeen) ∧
      (∃ q ∈ c :: cs, (q.2).lastSeen = d.lastSeen) := by
  have hcid : (c.2).id = theId := hall c (List.mem_cons_self c cs)
  have hfirstStep : save c.1 c.2 s = s ++ [saveInsertDoc c.1 c.2] := by
    have hany : s.any (fun x => decide (x.id = (c.2).id)) = false := by
      rw [List.any_eq_false]
      intro x hx
      simp [hs x hx, hcid]
    rw [save, hany]
    simp
  obtain ⟨d, heq, hid, hfirst, hlast⟩ :=
    saveSeq_single_id theId cs s (saveInsertDoc c.1 c.2) (by simp [saveInsertDoc, hcid])
      (fun q hq => hall q (List.mem_cons_of_mem c hq)) hs
  have heq2 : saveSeq (c :: cs) s = s ++ [d] := by
    show saveSeq cs (save c.1 c.2 s) = s ++ [d]
    rw [hfirstStep, heq]
  have hinit : (saveInsertDoc c.1 c.2).firstSeen = (c.2).firstSeen := rfl
  have hinit2 : (saveInsertDoc c.1 c.2).lastSeen = (c.2).lastSeen := rfl
  refine ⟨d, heq2, hid, ?_, ?_, ?_⟩
  · intro q hq
    rcases List.mem_cons.mp hq with rfl | hq2
    · constructor
      · rw [hfirst, hinit]; exact (foldl_min_le _ _).1
      · rw [hlast, hinit2]; exact (foldl_max_le _ _).1
    · constructor
      · rw [hfirst, hinit]
        exact (foldl_min_le _ _).2 _ (List.mem_map_of_mem _ hq2)
      · rw [hlast, hinit2]
        exact (foldl_max_le _ _).2 _ (List.mem_map_of_mem _ hq2)
  · rcases foldl_min_attained ((cs.map (fun q => (q.2).firstSeen))) (saveInsertDoc c.1 c.2).firstSeen
      with h | h
    · exact ⟨c, List.mem_cons_self c cs, by rw [hfirst, h, hinit]⟩
    · obtain ⟨q, hq, hqv⟩ := List.mem_map.mp h
      exact ⟨q, List.mem_cons_of_mem c hq, by rw [hfirst, hqv]⟩
  · rcases foldl_max_attained ((cs.map (fun q => (q.2).lastSeen))) (saveInsertDoc c.1 c.2).lastSeen
      with h | h
    · exact ⟨c, List.mem_cons_self c cs, by rw [hlast, h, hinit2]⟩
    · obtain ⟨q, hq, hqv⟩ := List.mem_map.mp h
      exact ⟨q, List.mem_cons_of_mem c hq, by rw [hlast, hqv]⟩

/-- C5: after a non-empty sequence of `save` calls for the same id on a store
with no prior record of that id, the stored record's `firstSeen` is the
minimum of all supplied `firstSeen` values and `lastSeen` the maximum of all
supplied `lastSeen` values, and any permutation of the sequence produces the
same watermarks. -/
theorem C5_watermark_merge
    (theId : String) (c : Int × Entry) (cs : List (Int × Entry)) (s : EntryStore)
    (hall : ∀ q ∈ c :: cs, (q.2).id = theId)
    (hs : ∀ x ∈ s, x.id ≠ theId) :
    ∃ d : Entry, saveSeq (c :: cs) s = s ++ [d] ∧ d.id = theId ∧
      (∀ q ∈ c :: cs, d.firstSeen ≤ (q.2).firstSeen ∧ (q.2).lastSeen ≤ d.lastSeen) ∧
      (∃ q ∈ c :: cs, (q.2).firstSeen = d.firstSeen) ∧
      (∃ q ∈ c :: cs, (q.2).lastSeen = d.lastSeen) ∧
      (∀ (c2 : Int × Entry) (cs2 : List (Int × Entry)),
        (c :: cs).Perm (c2 :: cs2) →
        ∃ d2 : Entry, saveSeq (c2 :: cs2) s = s ++ [d2] ∧
          d2.firstSeen = d.firstSeen ∧ d2.lastSeen = d.lastSeen) := by
  obtain ⟨d, heq, hid, hbounds, hattF, hattL⟩ := saveSeq_fresh_minmax theId c cs s hall hs
  refine ⟨d, heq, hid, hbounds, hattF, hattL, ?_⟩
  intro c2 cs2 hperm
  have hall2 : ∀ q ∈ c2 :: cs2, (q.2).id = theId :=
    fun q hq => hall q (hperm.mem_iff.mpr hq)
  obtain ⟨d2, heq2, _, hbounds2, hattF2, hattL2⟩ := saveSeq_fresh_minmax theId c2 cs2 s hall2 hs
  refine ⟨d2, heq2, ?_, ?_⟩
  · obtain ⟨qa, hqa, hqav⟩ := hattF2
    obtain ⟨qb, hqb, hqbv⟩ := hattF
    have h1 : d.firstSeen ≤ d2.firstSeen := by
      rw [← hqav]
      exact (hbounds qa (hperm.mem_iff.mpr hqa)).1
    have h2 : d2.firstSeen ≤ d.firstSeen := by
      rw [← hqbv]
      exact (hbounds2 qb (hperm.mem_iff.mp hqb)).1
    exact le_antisymm h2 h1
  · obtain ⟨qa, hqa, hqav⟩ := hattL2
    obtain ⟨qb, hqb, hqbv⟩ := hattL
    have h1 : d2.lastSeen ≤ d.lastSeen := by
      rw [← hqav]
      exact (hbounds qa (hperm.mem_iff.mpr hqa)).2
    have h2 : d.lastSeen ≤ d2.lastSeen := by
      rw [← hqbv]
      exact (hbounds2 qb (hperm.mem_iff.mp hqb)).2
    exact le_antisymm h1 h2

/-- Witness for C5: two saves for id "w" with crossing watermarks. -/
theorem C5_watermark_merge_witness :
    (∀ q ∈ [((1 : Int), (⟨"w", 5, 6, none, none, none, "p"⟩ : Entry)),
            ((2 : Int), (⟨"w", 3, 9, none, none, none, "r"⟩ : Entry))], (q.2).id = "w") ∧
    (∃ d : Entry,
      saveSeq [((1 : Int), (⟨"w", 5, 6, none, none, none, "p"⟩ : Entry)),
               ((2 : Int), (⟨"w", 3, 9, none, none, none, "r"⟩ : Entry))] [] = [] ++ [d] ∧
      d.id = "w" ∧
      (∀ q ∈ [((1 : Int), (⟨"w", 5, 6, none, none, none, "p"⟩ : Entry)),
              ((2 : Int), (⟨"w", 3, 9, none, none, none, "r"⟩ : Entry))],
        d.firstSeen ≤ (q.2).firstSeen ∧ (q.2).lastSeen ≤ d.lastSeen) ∧
      (∃ q ∈ [((1 : Int), (⟨"w", 5, 6, none, none, none, "p"⟩ : Entry)),
              ((2 : Int), (⟨"w", 3, 9, none, none, none, "r"⟩ : Entry))],
        (q.2).firstSeen = d.firstSeen) ∧
      (∃ q ∈ [((1 : Int), (⟨"w", 5, 6, none, none, none, "p"⟩ : Entry)),
              ((2 : Int), (⟨"w", 3, 9, none, none, none, "r"⟩ : Entry))],
        (q.2).lastSeen = d.lastSeen) ∧
      (∀ (c2 : (Int × Entry)) (cs2 : List (Int × Entry)),
        ([((1 : Int), (⟨"w", 5, 6, none, none, none, "p"⟩ : Entry)),
          ((2 : Int), (⟨"w", 3, 9, none, none, none, "r"⟩ : Entry))]).Perm (c2 :: cs2) →
        ∃ d2 : Entry, saveSeq (c2 :: cs2) [] = [] ++ [d2] ∧
          d2.firstSeen = d.firstSeen ∧ d2.lastSeen = d.lastSeen)) :=
  ⟨by decide,
    C5_watermark_merge "w" ((1 : Int), ⟨"w", 5, 6, none, none, none, "p"⟩)
      [((2 : Int), ⟨"w", 3, 9, none, none, none, "r"⟩)] []
      (by decide) (by simp)⟩

/-! ### Record invariants -/

/-- The record invariants of the spec's data model. -/
abbrev EntryWF (d : Entry) : Prop :=
  d.firstSeen ≤ d.lastSeen ∧
  d.indexJob.isSome = d.indexJobTimeout.isSome ∧
  (d.indexRequiredSince = none → d.indexJob = none)

/-- All stored entries satisfy the record invariants. -/
abbrev StoreWF (s : EntryStore) : Prop := ∀ d ∈ s, EntryWF d

theorem save_wf (now : Int) (entry : Entry) (s : EntryStore)
    (he : entry.firstSeen ≤ entry.lastSeen) (hs : StoreWF s) :
    StoreWF (save now entry s) := by
  rw [save]
  by_cases hany : s.any (fun d => decide (d.id = entry.id)) = true
  · rw [if_pos hany]
    intro x hx
    rcases mem_updateFirst _ _ s x hx with h1 | ⟨d, hd, _, rfl⟩
    · exact hs x h1
    · refine ⟨?_, rfl, fun h => rfl⟩
      show min d.firstSeen entry.firstSeen ≤ max d.lastSeen entry.lastSeen
      exact le_trans (min_le_left _ _) (le_trans (hs d hd).1 (le_max_left _ _))
  · rw [if_neg hany]
    intro x hx
    rcases List.mem_append.mp hx with h1 | h1
    · exact hs x h1
    · rcases List.mem_singleton.mp h1 with rfl
      exact ⟨he, rfl, fun h => rfl⟩

theorem saveMany_wf (now : Int) :
    ∀ (entries : List Entry) (s : EntryStore),
      (∀ e ∈ entries, e.firstSeen ≤ e.lastSeen) → StoreWF s →
      StoreWF (saveMany now entries s) := by
  intro entries
  induction entries with
  | nil => intro s _ hs; exact hs
  | cons e es ih =>
    intro s hall hs
    exact ih (save now e s)
      (fun x hx => hall x (List.mem_cons_of_mem e hx))
      (save_wf now e s (hall e (List.mem_cons_self e es)) hs)

theorem claimStep_wf (jobId : String) (ts tout : Int) (s : EntryStore)
    (hs : StoreWF s) : StoreWF (claimStep jobId ts tout s) := by
  intro x hx
  rcases mem_updateFirst _ _ s x hx with h1 | ⟨d, hd, helig, rfl⟩
  · exact hs x h1
  · refine ⟨(hs d hd).1, rfl, ?_⟩
    intro h
    have hreq : d.indexRequiredSince.isSome = true := ((Bool.and_eq_true _ _).mp helig).1
    have hnone : d.indexRequiredSince = none := by simpa [claimUpdate] using h
    rw [hnone] at hreq
    exact absurd hreq (by simp)

theorem bulkClaim_wf (jobId : String) (ts tout : Int) :
    ∀ (n : Nat) (s : EntryStore), StoreWF s →
      StoreWF (bulkClaim jobId ts tout n s) := by
  intro n
  induction n with
  | zero => intro s hs; exact hs
  | succ m ih => intro s hs; exact ih _ (claimStep_wf jobId ts tout s hs)

theorem release_wf (jobId : String) (s : EntryStore) (hs : StoreWF s) :
    StoreWF (setIndexJobFinished jobId s) := by
  intro x hx
  obtain ⟨d, hd, rfl⟩ := List.mem_map.mp hx
  by_cases h : d.indexJob = some jobId
  · rw [if_pos h]
    exact ⟨(hs d hd).1, rfl, fun _ => rfl⟩
  · rw [if_neg h]
    exact hs d hd

/-- C7: every repository operation — `save`, `saveMany`, `getIndexJob`,
`setIndexJobFinished` — preserves the record invariants on every stored
entry: `firstSeen ≤ lastSeen`, `indexJob`/`indexJobTimeout` both present or
both absent, and a missing `indexRequiredSince` forces a missing `indexJob`.
Saved values are assumed watermark-consistent (`firstSeen ≤ lastSeen`). -/
theorem C7_operations_preserve_invariants :
    (∀ (now : Int) (entry : Entry) (s : EntryStore),
      entry.firstSeen ≤ entry.lastSeen → StoreWF s → StoreWF (save now entry s)) ∧
    (∀ (now : Int) (entries : List Entry) (s : EntryStore),
      (∀ e ∈ entries, e.firstSeen ≤ e.lastSeen) → StoreWF s →
      StoreWF (saveMany now entries s)) ∧
    (∀ (jobId : String) (ts : Int) (n : Nat) (tout : Int) (s : EntryStore),
      StoreWF s → StoreWF (getIndexJob jobId ts n tout s).fst) ∧
    (∀ (jobId : String) (s : EntryStore),
      StoreWF s → StoreWF (setIndexJobFinished jobId s)) :=
  ⟨save_wf,
   saveMany_wf,
   fun jobId ts n tout s hs => bulkClaim_wf jobId ts tout n s hs,
   release_wf⟩

/-- Witness for C7: the `save` conjunct at a concrete entry and store. -/
theorem C7_operations_preserve_invariants_witness :
    ((⟨"n", 1, 2, none, none, none, "q"⟩ : Entry).firstSeen ≤
      (⟨"n", 1, 2, none, none, none, "q"⟩ : Entry).lastSeen ∧
     StoreWF [⟨"e2", 0, 1, some 0, some "K", some 50, "y"⟩]) ∧
    StoreWF (save 4 ⟨"n", 1, 2, none, none, none, "q"⟩
      [⟨"e2", 0, 1, some 0, some "K", some 50, "y"⟩]) :=
  ⟨⟨by decide, by decide⟩,
    C7_operations_preserve_invariants.1 4 ⟨"n", 1, 2, none, none, none, "q"⟩
      [⟨"e2", 0, 1, some 0, some "K", some 50, "y"⟩] (by decide) (by decide)⟩

/-! ### Frame conditions -/

/-- The fields the claim coordinator must never touch: identity, watermarks
and descriptive fields. -/
def frameFields (d : Entry) : String × Int × Int × String :=
  (d.id, d.firstSeen, d.lastSeen, d.data)

theorem bulkClaim_map {β : Type} (jobId : String) (ts tout : Int) (g : Entry → β)
    (hg : ∀ d, g (claimUpdate jobId ts tout d) = g d) :
    ∀ (n : Nat) (s : EntryStore), (bulkClaim jobId ts tout n s).map g = s.map g := by
  intro n
  induction n with
  | zero => intro s; rfl
  | succ m ih =>
    intro s
    rw [bulkClaim, ih, claimStep, updateFirst_map _ _ g hg]

theorem release_map {β : Type} (jobId : String) (g : Entry → β)
    (hg : ∀ d, g (releaseUpdate d) = g d) :
    ∀ s : EntryStore, (setIndexJobFinished jobId s).map g = s.map g := by
  intro s
  induction s with
  | nil => rfl
  | cons d ds ih =>
    simp only [setIndexJobFinished, List.map_cons] at ih ⊢
    rw [ih]
    by_cases h : d.indexJob = some jobId
    · rw [if_pos h, hg]
    · rw [if_neg h]

/-- C8: `getIndexJob` and `setIndexJobFinished` never modify `firstSeen`,
`lastSeen`, the id, or the descriptive fields of any stored entry: only the
three marker/lease fields may change. -/
theorem C8_claim_release_frame :
    (∀ (jobId : String) (ts : Int) (n : Nat) (tout : Int) (s : EntryStore),
      ((getIndexJob jobId ts n tout s).fst).map frameFields = s.map frameFields) ∧
    (∀ (jobId : String) (s : EntryStore),
      (setIndexJobFinished jobId s).map frameFields = s.map frameFields) :=
  ⟨fun jobId ts n tout s => bulkClaim_map jobId ts tout frameFields (fun _ => rfl) n s,
   fun jobId s => release_map jobId frameFields (fun _ => rfl) s⟩

/-! ### Non-positive lease durations -/

/-- C10: `getIndexJob` does not validate its `timeout` argument; with
`timeout ≤ 0` every claimed entry receives
`indexJobTimeout = timestamp + timeout ≤ timestamp`, so it is already
expired and satisfies the eligibility predicate for any claim evaluated at
any time `≥ timestamp`. -/
theorem C10_nonpositive_lease_immediately_expired
    (jobId : String) (ts : Int) (n : Nat) (tout : Int) (s : EntryStore)
    (hto : tout ≤ 0)
    (hfresh : ∀ d ∈ s, d.indexJob ≠ some jobId) :
    ∀ e ∈ (getIndexJob jobId ts n tout s).snd,
      e.indexJob = some jobId ∧
      e.indexJobTimeout = some (ts + tout) ∧
      ts + tout ≤ ts ∧
      ∀ t2 : Int, ts ≤ t2 → eligible t2 e = true := by
  intro e he
  have hmem : e ∈ bulkClaim jobId ts tout n s := List.mem_of_mem_filter he
  have hpred : e.indexJob = some jobId := by simpa using List.of_mem_filter he
  rcases mem_bulkClaim jobId ts tout n s e hmem with h1 | ⟨d, helig, rfl⟩
  · exact absurd hpred (hfresh e h1)
  · have hreq : d.indexRequiredSince.isSome = true := ((Bool.and_eq_true _ _).mp helig).1
    refine ⟨hpred, rfl, by omega, ?_⟩
    intro t2 ht2
    simp [eligible, claimUpdate, hreq]
    omega

/-- Witness for C10: claim with lease duration -5 at timestamp 10. -/
theorem C10_nonpositive_lease_immediately_expired_witness :
    ((-5 : Int) ≤ 0 ∧
     (∀ d ∈ ([⟨"e1", 0, 1, some 0, none, none, "x"⟩] : EntryStore),
       d.indexJob ≠ some "Z")) ∧
    (∀ e ∈ (getIndexJob "Z" 10 1 (-5) [⟨"e1", 0, 1, some 0, none, none, "x"⟩]).snd,
      e.indexJob = some "Z" ∧
      e.indexJobTimeout = some (10 + -5) ∧
      (10 : Int) + -5 ≤ 10 ∧
      ∀ t2 : Int, 10 ≤ t2 → eligible t2 e = true) :=
  ⟨⟨by decide, by decide⟩,
    C10_nonpositive_lease_immediately_expired "Z" 10 1 (-5)
      [⟨"e1", 0, 1, some 0, none, none, "x"⟩] (by decide) (by decide)⟩

/-! ### Concurrent claims

Mongo serializes the individual conditional `updateOne` operations of two
concurrent `getIndexJob` bulkWrites in some arbitrary interleaving; each
single operation is atomic.  `runClaims` executes such an interleaving:
`true` is one operation of call A, `false` one of call B.  Call A's read-back
happens after a prefix of length `kA` past which no A-operations remain, and
symmetrically for B. -/

def runClaims (jA : String) (tsA toA : Int) (jB : String) (tsB toB : Int) :
    List Bool → EntryStore → EntryStore
  | [], s => s
  | b :: acts, s =>
      runClaims jA tsA toA jB tsB toB acts
        (if b then claimStep jA tsA toA s else claimStep jB tsB toB s)

/-- Every entry tagged with `j` carries lease timeout `v`. -/
def TagInv (j : String) (v : Int) (s : EntryStore) : Prop :=
  ∀ d ∈ s, d.indexJob = some j → d.indexJobTimeout = some v

theorem runClaims_append (jA : String) (tsA toA : Int) (jB : String) (tsB toB : Int) :
    ∀ (l1 l2 : List Bool) (s : EntryStore),
      runClaims jA tsA toA jB tsB toB (l1 ++ l2) s =
        runClaims jA tsA toA jB tsB toB l2 (runClaims jA tsA toA jB tsB toB l1 s) := by
  intro l1
  induction l1 with
  | nil => intro l2 s; rfl
  | cons b l1 ih => intro l2 s; exact ih l2 _

theorem runClaims_const_false (jA : String) (tsA toA : Int) (jB : String) (tsB toB : Int) :
    ∀ (acts : List Bool), (∀ b ∈ acts, b = false) → ∀ s : EntryStore,
      runClaims jA tsA toA jB tsB toB acts s = bulkClaim jB tsB toB acts.length s := by
  intro acts
  induction acts with
  | nil => intro _ s; rfl
  | cons b acts ih =>
    intro hall s
    have hb : b = false := hall b (List.mem_cons_self b acts)
    subst hb
    have hrest : ∀ x ∈ acts, x = false := fun x hx => hall x (List.mem_cons_of_mem _ hx)
    show runClaims jA tsA toA jB tsB toB acts (claimStep jB tsB toB s) = _
    rw [ih hrest, List.length_cons, bulkClaim]

theorem runClaims_const_true (jA : String) (tsA toA : Int) (jB : String) (tsB toB : Int) :
    ∀ (acts : List Bool), (∀ b ∈ acts, b = true) → ∀ s : EntryStore,
      runClaims jA tsA toA jB tsB toB acts s = bulkClaim jA tsA toA acts.length s := by
  intro acts
  induction acts with
  | nil => intro _ s; rfl
  | cons b acts ih =>
    intro hall s
    have hb : b = true := hall b (List.mem_cons_self b acts)
    subst hb
    have hrest : ∀ x ∈ acts, x = true := fun x hx => hall x (List.mem_cons_of_mem _ hx)
    show runClaims jA tsA toA jB tsB toB acts (claimStep jA tsA toA s) = _
    rw [ih hrest, List.length_cons, bulkClaim]

theorem claimStep_tagInv (jS : String) (tsS toS : Int) (j : String) (v : Int)
    (hcase : jS ≠ j ∨ tsS + toS = v) (s : EntryStore) (h : TagInv j v s) :
    TagInv j v (claimStep jS tsS toS s) := by
  intro d hd hdj
  rcases mem_updateFirst _ _ s d hd with h1 | ⟨d2, _, _, rfl⟩
  · exact h d h1 hdj
  · have hjS : jS = j := Option.some.inj (by simpa [claimUpdate] using hdj)
    rcases hcase with h2 | h2
    · exact absurd hjS h2
    · show some (tsS + toS) = some v
      rw [h2]

theorem runClaims_tagInv (jA : String) (tsA toA : Int) (jB : String) (tsB toB : Int)
    (j : String) (v : Int)
    (hA : jA ≠ j ∨ tsA + toA = v) (hB : jB ≠ j ∨ tsB + toB = v) :
    ∀ (acts : List Bool) (s : EntryStore), TagInv j v s →
      TagInv j v (runClaims jA tsA toA jB tsB toB acts s) := by
  intro acts
  induction acts with
  | nil => intro s hs; exact hs
  | cons b acts ih =>
    intro s hs
    cases b
    · exact ih _ (claimStep_tagInv jB tsB toB j v hB s hs)
    · exact ih _ (claimStep_tagInv jA tsA toA j v hA s hs)

theorem runClaims_map_id (jA : String) (tsA toA : Int) (jB : String) (tsB toB : Int) :
    ∀ (acts : List Bool) (s : EntryStore),
      (runClaims jA tsA toA jB tsB toB acts s).map Entry.id = s.map Entry.id := by
  intro acts
  induction acts with
  | nil => intro s; rfl
  | cons b acts ih =>
    intro s
    cases b
    · show (runClaims jA tsA toA jB tsB toB acts (claimStep jB tsB toB s)).map Entry.id
        = s.map Entry.id
      rw [ih]
      exact updateFirst_map (eligible tsB) (claimUpdate jB tsB toB) Entry.id (fun _ => rfl) s
    · show (runClaims jA tsA toA jB tsB toB acts (claimStep jA tsA toA s)).map Entry.id
        = s.map Entry.id
      rw [ih]
      exact updateFirst_map (eligible tsA) (claimUpdate jA tsA toA) Entry.id (fun _ => rfl) s

theorem eligible_false_of_leased (ts : Int) (d : Entry) (j : String) (v : Int)
    (hj : d.indexJob = some j) (hv : d.indexJobTimeout = some v) (hexp : ¬(v ≤ ts)) :
    eligible ts d = false := by
  simp [eligible, hj, hv, decide_eq_false hexp]

theorem bulkClaim_stable_tagged (jS : String) (tsS toS : Int) (jT : String) (vT : Int)
    (hcase : jS ≠ jT ∨ tsS + toS = vT) (hexp : ¬(vT ≤ tsS)) :
    ∀ (m : Nat) (s : EntryStore) (i : Nat) (h : i < s.length)
      (h2 : i < (bulkClaim jS tsS toS m s).length),
      TagInv jT vT s → (s.get ⟨i, h⟩).indexJob = some jT →
      (bulkClaim jS tsS toS m s).get ⟨i, h2⟩ = s.get ⟨i, h⟩ := by
  intro m
  induction m with
  | zero => intro s i h h2 _ _; rfl
  | succ k ih =>
    intro s i h h2 htag hij
    have hlen : (claimStep jS tsS toS s).length = s.length := by
      rw [claimStep, updateFirst_length]
    have h3 : i < (claimStep jS tsS toS s).length := by rw [hlen]; exact h
    have hto : (s.get ⟨i, h⟩).indexJobTimeout = some vT :=
      htag _ (List.get_mem s i h) hij
    have hinelig : eligible tsS (s.get ⟨i, h⟩) = false :=
      eligible_false_of_leased tsS (s.get ⟨i, h⟩) jT vT hij hto hexp
    have hstep : (claimStep jS tsS toS s).get ⟨i, h3⟩ = s.get ⟨i, h⟩ :=
      updateFirst_get_of_false _ _ s i h h3 hinelig
    have h4 : i < (bulkClaim jS tsS toS k (claimStep jS tsS toS s)).length := by
      rw [bulkClaim_length, hlen]; exact h
    have hrec := ih (claimStep jS tsS toS s) i h3 h4
      (claimStep_tagInv jS tsS toS jT vT hcase s htag)
      (by rw [hstep]; exact hij)
    show (bulkClaim jS tsS toS k (claimStep jS tsS toS s)).get ⟨i, h4⟩ = s.get ⟨i, h⟩
    exact hrec.trans hstep

theorem claims_disjoint_core (jS : String) (tsS toS : Int) (k : Nat)
    (jT jO : String) (vT : Int) (m : EntryStore)
    (hneq : jT ≠ jO)
    (hcase : jS ≠ jT ∨ tsS + toS = vT)
    (hexp : ¬(vT ≤ tsS))
    (htag : TagInv jT vT m)
    (hnodup : ((bulkClaim jS tsS toS k m).map Entry.id).Nodup) :
    ∀ x ∈ m.filter (fun d => decide (d.indexJob = some jT)),
    ∀ y ∈ (bulkClaim jS tsS toS k m).filter (fun d => decide (d.indexJob = some jO)),
      x.id ≠ y.id := by
  intro x hx y hy hxy
  have hxm : x ∈ m := List.mem_of_mem_filter hx
  have hxj : x.indexJob = some jT := by simpa using List.of_mem_filter hx
  have hym : y ∈ bulkClaim jS tsS toS k m := List.mem_of_mem_filter hy
  have hyj : y.indexJob = some jO := by simpa using List.of_mem_filter hy
  obtain ⟨⟨i, hi⟩, hgi⟩ := List.mem_iff_get.mp hxm
  have hi2 : i < (bulkClaim jS tsS toS k m).length := by
    rw [bulkClaim_length]; exact hi
  have hstable : (bulkClaim jS tsS toS k m).get ⟨i, hi2⟩ = x := by
    rw [bulkClaim_stable_tagged jS tsS toS jT vT hcase hexp k m i hi hi2 htag
      (by rw [hgi]; exact hxj)]
    exact hgi
  obtain ⟨⟨i2, hi2b⟩, hgi2⟩ := List.mem_iff_get.mp hym
  have hmap1 : i < ((bulkClaim jS tsS toS k m).map Entry.id).length := by
    rw [List.length_map]; exact hi2
  have hmap2 : i2 < ((bulkClaim jS tsS toS k m).map Entry.id).length := by
    rw [List.length_map]; exact hi2b
  have e1 : ((bulkClaim jS tsS toS k m).map Entry.id).get ⟨i, hmap1⟩ =
      ((bulkClaim jS tsS toS k m).get ⟨i, hi2⟩).id := by
    simp [List.get_eq_getElem, List.getElem_map]
  have e2 : ((bulkClaim jS tsS toS k m).map Entry.id).get ⟨i2, hmap2⟩ =
      ((bulkClaim jS tsS toS k m).get ⟨i2, hi2b⟩).id := by
    simp [List.get_eq_getElem, List.getElem_map]
  have hgeteq : ((bulkClaim jS tsS toS k m).map Entry.id).get ⟨i, hmap1⟩ =
      ((bulkClaim jS tsS toS k m).map Entry.id).get ⟨i2, hmap2⟩ := by
    rw [e1, e2, hstable, hgi2]
    exact hxy
  have hfin : (⟨i, hmap1⟩ : Fin _) = ⟨i2, hmap2⟩ :=
    List.nodup_iff_injective_get.mp hnodup hgeteq
  have hieq : i = i2 := congrArg Fin.val hfin
  subst hieq
  have hxeqy : x = y := by rw [← hstable, hgi2]
  rw [hxeqy, hyj] at hxj
  exact hneq (Option.some.inj hxj).symm

/-- C9: for any interleaving of the atomic conditional updates of two
concurrent `getIndexJob` calls A (`jA`, at `tsA`, lease `toA`) and B (`jB`,
at `tsB`, lease `toB`), with each call reading back after its own operations
have finished, the returned entry sets are disjoint (by document id) as long
as neither lease is expired at the other call's timestamp. -/
theorem C9_concurrent_claims_disjoint
    (jA jB : String) (tsA toA tsB toB : Int)
    (acts : List Bool) (kA kB : Nat) (s0 : EntryStore)
    (hne : jA ≠ jB)
    (hfreshA : ∀ d ∈ s0, d.indexJob ≠ some jA)
    (hfreshB : ∀ d ∈ s0, d.indexJob ≠ some jB)
    (hunexpA : tsB < tsA + toA)
    (hunexpB : tsA < tsB + toB)
    (hnodup : (s0.map Entry.id).Nodup)
    (hkA : ∀ b ∈ acts.drop kA, b = false)
    (hkB : ∀ b ∈ acts.drop kB, b = true) :
    ∀ x ∈ (runClaims jA tsA toA jB tsB toB (acts.take kA) s0).filter
        (fun d => decide (d.indexJob = some jA)),
    ∀ y ∈ (runClaims jA tsA toA jB tsB toB (acts.take kB) s0).filter
        (fun d => decide (d.indexJob = some jB)),
      x.id ≠ y.id := by
  rcases le_total kA kB with hk | hk
  · obtain ⟨seg, hsegdef⟩ : ∃ seg : List Bool, seg = (acts.take kB).drop kA := ⟨_, rfl⟩
    have hsplit : acts.take kB = acts.take kA ++ seg := by
      rw [hsegdef]
      conv_lhs => rw [← List.take_append_drop kA (acts.take kB)]
      rw [List.take_take, min_eq_left hk]
    have hseg : ∀ b ∈ seg, b = false := by
      intro b hb
      apply hkA
      rw [hsegdef, List.drop_take kB kA acts] at hb
      exact (List.take_sublist _ _).subset hb
    have hm2 : runClaims jA tsA toA jB tsB toB (acts.take kB) s0 =
        bulkClaim jB tsB toB seg.length
          (runClaims jA tsA toA jB tsB toB (acts.take kA) s0) := by
      rw [hsplit, runClaims_append]
      exact runClaims_const_false jA tsA toA jB tsB toB seg hseg _
    have htag : TagInv jA (tsA + toA) (runClaims jA tsA toA jB tsB toB (acts.take kA) s0) :=
      runClaims_tagInv jA tsA toA jB tsB toB jA (tsA + toA) (Or.inr rfl)
        (Or.inl hne.symm) (acts.take kA) s0
        (fun d hd hdj => absurd hdj (hfreshA d hd))
    have hnodup2 : ((bulkClaim jB tsB toB seg.length
        (runClaims jA tsA toA jB tsB toB (acts.take kA) s0)).map Entry.id).Nodup := by
      rw [← hm2, runClaims_map_id]
      exact hnodup
    intro x hx y hy
    refine claims_disjoint_core jB tsB toB _ jA jB (tsA + toA) _ hne
      (Or.inl hne.symm) (by omega) htag hnodup2 x hx y ?_
    rw [← hm2]
    exact hy
  · obtain ⟨seg, hsegdef⟩ : ∃ seg : List Bool, seg = (acts.take kA).drop kB := ⟨_, rfl⟩
    have hsplit : acts.take kA = acts.take kB ++ seg := by
      rw [hsegdef]
      conv_lhs => rw [← List.take_append_drop kB (acts.take kA)]
      rw [List.take_take, min_eq_left hk]
    have hseg : ∀ b ∈ seg, b = true := by
      intro b hb
      apply hkB
      rw [hsegdef, List.drop_take kA kB acts] at hb
      exact (List.take_sublist _ _).subset hb
    have hm1 : runClaims jA tsA toA jB tsB toB (acts.take kA) s0 =
        bulkClaim jA tsA toA seg.length
          (runClaims jA tsA toA jB tsB toB (acts.take kB) s0) := by
      rw [hsplit, runClaims_append]
      exact runClaims_const_true jA tsA toA jB tsB toB seg hseg _
    have htag : TagInv jB (tsB + toB) (runClaims jA tsA toA jB tsB toB (acts.take kB) s0) :=
      runClaims_tagInv jA tsA toA jB tsB toB jB (tsB + toB) (Or.inl hne)
        (Or.inr rfl) (acts.take kB) s0
        (fun d hd hdj => absurd hdj (hfreshB d hd))
    have hnodup1 : ((bulkClaim jA tsA toA seg.length
        (runClaims jA tsA toA jB tsB toB (acts.take kB) s0)).map Entry.id).Nodup := by
      rw [← hm1, runClaims_map_id]
      exact hnodup
    intro x hx y hy
    have := claims_disjoint_core jA tsA toA _ jB jA (tsB + toB) _ hne.symm
      (Or.inl hne) (by omega) htag hnodup1 y hy x (by rw [← hm1]; exact hx)
    exact fun h => this h.symm

/-- Witness for C9: two pending entries, interleaving [A-step, B-step], A
reads after position 1, B after position 2. -/
theorem C9_concurrent_claims_disjoint_witness :
    (("A" : String) ≠ "B" ∧
     (∀ d ∈ ([⟨"e1", 0, 1, some 0, none, none, "x"⟩,
              ⟨"e2", 2, 3, some 1, none, none, "y"⟩] : EntryStore),
       d.indexJob ≠ some "A" ∧ d.indexJob ≠ some "B") ∧
     (0 : Int) < 0 + 10 ∧
     (([⟨"e1", 0, 1, some 0, none, none, "x"⟩,
        ⟨"e2", 2, 3, some 1, none, none, "y"⟩] : EntryStore).map Entry.id).Nodup ∧
     (∀ b ∈ ([true, false] : List Bool).drop 1, b = false) ∧
     (∀ b ∈ ([true, false] : List Bool).drop 2, b = true)) ∧
    (∀ x ∈ (runClaims "A" 0 10 "B" 0 10 (([true, false] : List Bool).take 1)
        [⟨"e1", 0, 1, some 0, none, none, "x"⟩,
         ⟨"e2", 2, 3, some 1, none, none, "y"⟩]).filter
        (fun d => decide (d.indexJob = some "A")),
     ∀ y ∈ (runClaims "A" 0 10 "B" 0 10 (([true, false] : List Bool).take 2)
        [⟨"e1", 0, 1, some 0, none, none, "x"⟩,
         ⟨"e2", 2, 3, some 1, none, none, "y"⟩]).filter
        (fun d => decide (d.indexJob = some "B")),
       x.id ≠ y.id) :=
  ⟨⟨by decide, by decide, by decide, by decide, by decide, by decide⟩,
    C9_concurrent_claims_disjoint "A" "B" 0 10 0 10 [true, false] 1 2
      [⟨"e1", 0, 1, some 0, none, none, "x"⟩,
       ⟨"e2", 2, 3, some 1, none, none, "y"⟩]
      (by decide) (by decide) (by decide) (by decide) (by decide)
      (by decide) (by decide) (by decide)⟩

end MVW
